import Mathlib

/-!
Shallow embedding of the `ai-rag-chunkenizer` core (`src/chunkenizer/core.py`
and `src/chunkenizer/extractors/__init__.py`).

The token counter (`tiktoken` encoding, an external library) is modelled as an
abstract function `enc : String → Nat` carried inside the `Chunkenizer` record;
`c.enc s` stands for `len(self._encoding.encode(s))`.  File-system access and
per-format extraction are likewise external collaborators and are passed in as
parameters (`pathExists`, `extract`).  Everything else is translated directly
from the Python source.
-/

/-- Model of Python `str.split()` (no argument): split on runs of whitespace,
discarding the delimiters; never produces an empty word.  The accumulator holds
the characters of the word currently being read, in reverse order. -/
def splitWordsAux : List Char → List Char → List String
  | [], acc => if acc = [] then [] else [String.mk acc.reverse]
  | ch :: cs, acc =>
    if ch.isWhitespace then
      (if acc = [] then splitWordsAux cs [] else String.mk acc.reverse :: splitWordsAux cs [])
    else
      splitWordsAux cs (ch :: acc)

/-- Model of `text.split()` from `core.py` line 121. -/
def splitWords (text : String) : List String :=
  splitWordsAux text.data []

/-- Model of the Python truthiness test `not text or not text.strip()`
(`core.py` line 118): true exactly when the string is empty or every character
is whitespace. -/
def isBlank (text : String) : Bool :=
  text.data.all (fun ch => ch.isWhitespace)

/-- Model of `" ".join(current_words)` (`core.py` lines 132 and 153). -/
def joinWords : List String → String
  | [] => ""
  | [w] => w
  | w :: ws => w ++ " " ++ joinWords ws

/-- Model of Python `str.lower()` as used on the file extension
(`core.py` line 180). -/
def strToLower (s : String) : String :=
  String.mk (s.data.map Char.toLower)

/-- Final path component (model of `pathlib.Path(file_path).name`):
the characters after the last `/`. -/
def lastComponentAux : List Char → List Char → List Char
  | [], acc => acc.reverse
  | '/' :: cs, _ => lastComponentAux cs []
  | ch :: cs, acc => lastComponentAux cs (ch :: acc)

/-- Model of `pathlib.Path(file_path).name`. -/
def pathName (p : String) : String :=
  String.mk (lastComponentAux p.data [])

/-- Index of the last `.` in a character list, if any (model of
`str.rfind('.')` inside `pathlib`'s `suffix`). -/
def lastDotIdx : List Char → Option Nat
  | [] => none
  | ch :: cs =>
    match lastDotIdx cs with
    | some i => some (i + 1)
    | none => if ch = '.' then some 0 else none

/-- Model of `pathlib.Path(file_path).suffix` (`core.py` line 180): the final
extension of the last path component, including the dot; empty when the last
dot is the first character of the name or the final character. -/
def pathSuffix (p : String) : String :=
  let name := pathName p
  match lastDotIdx name.data with
  | some i =>
      if 0 < i ∧ i < name.data.length - 1 then String.mk (name.data.drop i) else ""
  | none => ""

/-- Translation of the `Chunk` dataclass (`core.py` lines 25-39). -/
structure Chunk where
  index : Nat
  text : String
  token_count : Nat
  char_count : Nat
deriving DecidableEq

/-- Translation of the `config` dictionary snapshot stored in a `ChunkResult`
(`core.py` lines 199-203). -/
structure Config where
  max_tokens : Int
  overlap_tokens : Int
  model : String
deriving DecidableEq

/-- Translation of the `ChunkResult` dataclass (`core.py` lines 42-64). -/
structure ChunkResult where
  source : String
  total_chunks : Nat
  total_tokens : Nat
  total_chars : Nat
  chunks : List Chunk
  config : Config
deriving DecidableEq

/-- Errors raised by `Chunkenizer.process` (`core.py` lines 175-188):
`FileNotFoundError`, `ValueError` for an unsupported format, and any
failure propagated from the extraction collaborator. -/
inductive ProcessError where
  | fileNotFound : String → ProcessError
  | unsupportedFormat : String → ProcessError
  | extractionFailure : String → ProcessError
deriving DecidableEq

/-- The only failure path in `Chunkenizer.__init__` (`core.py` line 96):
`tiktoken.encoding_for_model(model)` not recognizing the model. -/
inductive InitError where
  | unknownModel : String → InitError
deriving DecidableEq

/-- Translation of the `Chunkenizer` object state (`core.py` lines 87-96):
the stored configuration plus the encoding obtained from `tiktoken`,
modelled as an abstract token-counting function. -/
structure Chunkenizer where
  max_tokens : Int
  overlap_tokens : Int
  model : String
  enc : String → Nat

/-- Translation of `Chunkenizer.__init__` (`core.py` lines 87-96).  The
parameter `encFor` models `tiktoken.encoding_for_model`, the single operation
in the constructor body that can fail.  Note the body performs no validation
of `max_tokens` or `overlap_tokens`: it only stores them. -/
def Chunkenizer.init (encFor : String → Option (String → Nat))
    (max_tokens overlap_tokens : Int) (model : String) :
    Except InitError Chunkenizer :=
  match encFor model with
  | some e => Except.ok ⟨max_tokens, overlap_tokens, model, e⟩
  | none => Except.error (InitError.unknownModel model)

/-- Translation of `Chunkenizer.count_tokens` (`core.py` lines 98-100). -/
def Chunkenizer.count_tokens (c : Chunkenizer) (text : String) : Nat :=
  c.enc text

/-- Mutable loop state of `Chunkenizer.chunk_text` (`core.py` lines 122-124). -/
structure LoopState where
  chunks : List Chunk
  current_words : List String
  current_tokens : Nat

/-- Translation of `max(1, self.overlap_tokens // 4)` (`core.py` line 141).
Python `//` on ints is floor division, hence `Int.fdiv`. -/
def overlapWordCount (c : Chunkenizer) : Nat :=
  (max 1 (Int.fdiv c.overlap_tokens 4)).toNat

/-- Translation of the chunk-emission statement (`core.py` lines 132-138 and
152-159): join the window, append a `Chunk` whose `token_count` is the exact
recount of the joined text and whose index is the current chunk count. -/
def commitChunk (c : Chunkenizer) (chunks : List Chunk) (cur : List String) :
    List Chunk :=
  let t := joinWords cur
  chunks ++ [⟨chunks.length, t, c.count_tokens t, t.length⟩]

/-- One iteration of the `for word in words` loop body
(`core.py` lines 126-149). -/
def chunkStep (c : Chunkenizer) (s : LoopState) (word : String) : LoopState :=
  let word_tokens := c.enc (word ++ " ")
  let s1 : LoopState :=
    if ((s.current_tokens + word_tokens : Int) > c.max_tokens) ∧
        s.current_words ≠ [] then
      let cw := s.current_words.drop (s.current_words.length - overlapWordCount c)
      ⟨commitChunk c s.chunks s.current_words, cw,
        (cw.map (fun w => c.enc (w ++ " "))).sum⟩
    else s
  ⟨s1.chunks, s1.current_words ++ [word], s1.current_tokens + word_tokens⟩

/-- The whole `for word in words` loop (`core.py` lines 126-149). -/
def chunkLoop (c : Chunkenizer) : LoopState → List String → LoopState
  | s, [] => s
  | s, w :: ws => chunkLoop c (chunkStep c s w) ws

/-- Translation of `Chunkenizer.chunk_text` (`core.py` lines 102-161). -/
def Chunkenizer.chunk_text (c : Chunkenizer) (text : String) : List Chunk :=
  if isBlank text then []
  else
    let s := chunkLoop c ⟨[], [], 0⟩ (splitWords text)
    if s.current_words ≠ [] then commitChunk c s.chunks s.current_words
    else s.chunks

/-- Translation of `EXTRACTORS` keys / `get_supported_extensions()`
(`extractors/__init__.py` lines 26-38), i.e. `SUPPORTED_EXTENSIONS`. -/
def supportedExtensions : List String :=
  [".pdf", ".docx", ".xlsx", ".xls", ".csv", ".pptx"]

/-- The `ChunkResult` construction shared by `process` and `process_text`
(`core.py` lines 193-204 and 219-230). -/
def assembleResult (c : Chunkenizer) (source : String) (chunks : List Chunk) :
    ChunkResult :=
  ⟨source, chunks.length,
    (chunks.map Chunk.token_count).sum,
    (chunks.map Chunk.char_count).sum,
    chunks,
    ⟨c.max_tokens, c.overlap_tokens, c.model⟩⟩

/-- Translation of `Chunkenizer.process` (`core.py` lines 163-204).
`pathExists` models `Path(file_path).exists()` and `extract` models the
`extract_text` collaborator, which may fail with a format-library error. -/
def Chunkenizer.process (c : Chunkenizer) (pathExists : String → Bool)
    (extract : String → Except String String) (file_path : String) :
    Except ProcessError ChunkResult :=
  if pathExists file_path = false then
    Except.error (ProcessError.fileNotFound file_path)
  else
    let ext := strToLower (pathSuffix file_path)
    if supportedExtensions.contains ext = false then
      Except.error (ProcessError.unsupportedFormat ext)
    else
      match extract file_path with
      | Except.error e => Except.error (ProcessError.extractionFailure e)
      | Except.ok text => Except.ok (assembleResult c (pathName file_path) (c.chunk_text text))

/-- Translation of `Chunkenizer.process_text` (`core.py` lines 206-230). -/
def Chunkenizer.process_text (c : Chunkenizer) (text : String)
    (source_name : String) : ChunkResult :=
  assembleResult c source_name (c.chunk_text text)

/-- The deterministic test token counter of spec section 8: one token per
word-plus-trailing-space, and the count of a joined text is its number of
words. -/
def testCounter (s : String) : Nat :=
  (splitWords s).length

/-- A concrete chunker for the spec section 8 scenarios:
`max_tokens = 2`, `overlap_tokens = 0`, test counter. -/
def testChunker : Chunkenizer :=
  ⟨2, 0, "test", testCounter⟩

/-- Words of a chunk: the whitespace-split word sequence of its text. -/
def wordsOf (ch : Chunk) : List String :=
  splitWords ch.text

/-- A wellformed word as produced by `splitWords`: non-empty and containing
no whitespace character. -/
def IsWord (w : String) : Prop :=
  w.data ≠ [] ∧ ∀ ch ∈ w.data, ch.isWhitespace = false

/-- The overlap carry-over relation between two consecutive emitted chunks:
both are non-empty and the second begins with exactly the last
`min K (wordsOf a).length` words of the first, in their original order. -/
def carriesOverlap (K : Nat) (a b : Chunk) : Prop :=
  wordsOf a ≠ [] ∧ wordsOf b ≠ [] ∧
    (wordsOf b).take (min K (wordsOf a).length) =
      (wordsOf a).drop ((wordsOf a).length - min K (wordsOf a).length)

/-- Removes from each chunk after the first the words carried over as overlap
from its predecessor (`min K` carried words, clamped to the predecessor's
length), and concatenates what remains.  `prev` is the preceding chunk. -/
def reconstructAux (K : Nat) : Chunk → List Chunk → List String
  | _, [] => []
  | prev, ch :: rest =>
      (wordsOf ch).drop (min K (wordsOf prev).length) ++ reconstructAux K ch rest

/-- Concatenation of all chunk words with the duplicated overlap words
removed from every chunk other than the first. -/
def reconstructWords (K : Nat) : List Chunk → List String
  | [] => []
  | ch :: rest => wordsOf ch ++ reconstructAux K ch rest

/-- Upper bound measure for the chunk count: emitted chunks plus one for a
pending non-empty window. -/
def chunkMeasure (s : LoopState) : Nat :=
  s.chunks.length + (if s.current_words = [] then 0 else 1)

/-- Aggregate consistency of a `ChunkResult`. -/
def AggOk (r : ChunkResult) : Prop :=
  r.total_chunks = r.chunks.length ∧
    r.total_tokens = (r.chunks.map Chunk.token_count).sum ∧
    r.total_chars = (r.chunks.map Chunk.char_count).sum

/-- Loop invariant for `chunkLoop` relating the state to the list `done` of
words consumed so far: all held words are wellformed, the emitted chunks are
linked by the overlap carry-over relation, the working window starts with the
words carried from the last emitted chunk, and the emitted chunks together
with the un-carried part of the window reconstruct exactly `done`. -/
structure GoodState (K : Nat) (done : List String) (s : LoopState) : Prop where
  wf_cur : ∀ w ∈ s.current_words, IsWord w
  wf_chunks : ∀ ch ∈ s.chunks, wordsOf ch ≠ [] ∧ ∀ w ∈ wordsOf ch, IsWord w
  chain : List.Chain' (carriesOverlap K) s.chunks
  pref : ∀ L, s.chunks.getLast? = some L →
    min K (wordsOf L).length ≤ s.current_words.length ∧
    s.current_words.take (min K (wordsOf L).length) =
      (wordsOf L).drop ((wordsOf L).length - min K (wordsOf L).length)
  recon_nil : s.chunks = [] → s.current_words = done
  recon : ∀ L, s.chunks.getLast? = some L →
    reconstructWords K s.chunks ++ s.current_words.drop (min K (wordsOf L).length) = done

theorem splitWordsAux_nil (acc : List Char) :
    splitWordsAux [] acc = if acc = [] then [] else [String.mk acc.reverse] := rfl

theorem splitWordsAux_cons (c : Char) (cs acc : List Char) :
    splitWordsAux (c :: cs) acc =
      if c.isWhitespace then
        (if acc = [] then splitWordsAux cs []
         else String.mk acc.reverse :: splitWordsAux cs [])
      else splitWordsAux cs (c :: acc) := rfl

theorem splitWordsAux_wf : ∀ (cs acc : List Char),
    (∀ ch ∈ acc, ch.isWhitespace = false) →
    ∀ w ∈ splitWordsAux cs acc, IsWord w
  | [], acc, hacc, w, hw => by
    rw [splitWordsAux_nil] at hw
    by_cases h : acc = []
    · simp [h] at hw
    · rw [if_neg h] at hw
      rcases List.mem_singleton.1 hw with rfl
      refine ⟨by simpa using h, ?_⟩
      intro ch hch
      exact hacc ch (by simpa using hch)
  | c :: cs, acc, hacc, w, hw => by
    rw [splitWordsAux_cons] at hw
    by_cases hws : c.isWhitespace = true
    · rw [if_pos hws] at hw
      by_cases h : acc = []
      · rw [if_pos h] at hw
        exact splitWordsAux_wf cs [] (by simp) w hw
      · rw [if_neg h] at hw
        rcases List.mem_cons.1 hw with rfl | h1
        · refine ⟨by simpa using h, ?_⟩
          intro ch hch
          exact hacc ch (by simpa using hch)
        · exact splitWordsAux_wf cs [] (by simp) w h1
    · rw [if_neg hws] at hw
      refine splitWordsAux_wf cs (c :: acc) ?_ w hw
      intro ch hch
      rcases List.mem_cons.1 hch with rfl | h1
      · simpa using hws
      · exact hacc ch h1

theorem splitWords_wf (text : String) : ∀ w ∈ splitWords text, IsWord w :=
  splitWordsAux_wf text.data [] (by simp)

theorem splitWordsAux_blank : ∀ (cs : List Char),
    (∀ ch ∈ cs, ch.isWhitespace = true) → splitWordsAux cs [] = []
  | [], _ => by simp [splitWordsAux_nil]
  | c :: cs, h => by
    have hc := h c (List.mem_cons_self c cs)
    have ih := splitWordsAux_blank cs (fun ch hch => h ch (List.mem_cons_of_mem c hch))
    simp [splitWordsAux_cons, hc, ih]

theorem splitWords_of_isBlank (text : String) (h : isBlank text = true) :
    splitWords text = [] := by
  refine splitWordsAux_blank text.data ?_
  intro ch hch
  exact List.all_eq_true.1 h ch hch

theorem splitWordsAux_no_ws : ∀ (d cs acc : List Char),
    (∀ ch ∈ d, ch.isWhitespace = false) →
    splitWordsAux (d ++ cs) acc = splitWordsAux cs (d.reverse ++ acc)
  | [], cs, acc, _ => by simp
  | c :: d, cs, acc, h => by
    have hc : c.isWhitespace = false := h c (List.mem_cons_self c d)
    have ih := splitWordsAux_no_ws d cs (c :: acc)
      (fun ch hch => h ch (List.mem_cons_of_mem c hch))
    rw [List.cons_append, splitWordsAux_cons, hc]
    simpa using ih

theorem joinWords_cons_cons (w v : String) (vs : List String) :
    joinWords (w :: v :: vs) = w ++ " " ++ joinWords (v :: vs) := rfl

theorem splitWords_joinWords : ∀ (ws : List String), (∀ w ∈ ws, IsWord w) →
    splitWords (joinWords ws) = ws
  | [], _ => by simp [splitWords, joinWords, splitWordsAux_nil]
  | [w], h => by
    have hw := h w (by simp)
    show splitWordsAux (joinWords [w]).data [] = [w]
    have hjw : (joinWords [w]).data = w.data ++ [] := by simp [joinWords]
    rw [hjw, splitWordsAux_no_ws w.data [] [] hw.2, splitWordsAux_nil]
    have hacc : w.data.reverse ++ ([] : List Char) ≠ [] := by simpa using hw.1
    rw [if_neg hacc]
    have hrev : (w.data.reverse ++ ([] : List Char)).reverse = w.data := by simp
    rw [hrev]
  | w :: v :: vs, h => by
    have hw := h w (by simp)
    have ih := splitWords_joinWords (v :: vs) (fun u hu => h u (by simp [hu]))
    show splitWordsAux (joinWords (w :: v :: vs)).data [] = w :: v :: vs
    have hdata : (joinWords (w :: v :: vs)).data =
        w.data ++ (' ' :: (joinWords (v :: vs)).data) := by
      rw [joinWords_cons_cons]
      simp [String.data_append]
    rw [hdata, splitWordsAux_no_ws w.data _ [] hw.2, splitWordsAux_cons]
    have hsp : (' ' : Char).isWhitespace = true := rfl
    have hacc : w.data.reverse ++ ([] : List Char) ≠ [] := by simpa using hw.1
    rw [if_pos hsp, if_neg hacc]
    have hrev : (w.data.reverse ++ ([] : List Char)).reverse = w.data := by simp
    rw [hrev]
    show String.mk w.data :: splitWords (joinWords (v :: vs)) = w :: v :: vs
    rw [ih]

theorem reconstructAux_concat (K : Nat) : ∀ (l : List Chunk) (prev C : Chunk),
    reconstructAux K prev (l ++ [C]) =
      reconstructAux K prev l ++ (wordsOf C).drop (min K (wordsOf (l.getLastD prev)).length)
  | [], prev, C => by simp [reconstructAux]
  | x :: xs, prev, C => by
    rw [List.cons_append]
    show (wordsOf x).drop (min K (wordsOf prev).length) ++ reconstructAux K x (xs ++ [C]) = _
    rw [reconstructAux_concat K xs x C, List.getLastD_cons]
    simp [reconstructAux, List.append_assoc]

theorem reconstructWords_concat (K : Nat) (l : List Chunk) (C L : Chunk)
    (h : l.getLast? = some L) :
    reconstructWords K (l ++ [C]) =
      reconstructWords K l ++ (wordsOf C).drop (min K (wordsOf L).length) := by
  cases l with
  | nil => simp at h
  | cons x xs =>
    have hL : xs.getLastD x = L := by
      have h1 : (x :: xs).getLastD x = xs.getLastD x := List.getLastD_cons x x xs
      have h2 := List.getLastD_eq_getLast? x (x :: xs)
      rw [h, h1] at h2
      simpa using h2
    rw [List.cons_append]
    show wordsOf x ++ reconstructAux K x (xs ++ [C]) = _
    rw [reconstructAux_concat K xs x C, hL]
    simp [reconstructWords, List.append_assoc]

theorem reconstructWords_singleton (K : Nat) (C : Chunk) :
    reconstructWords K [C] = wordsOf C := by
  simp [reconstructWords, reconstructAux]

theorem chunkStep_of_commit {c : Chunkenizer} {s : LoopState} {w : String}
    (h : ((s.current_tokens + c.enc (w ++ " ") : Int) > c.max_tokens) ∧
      s.current_words ≠ []) :
    chunkStep c s w = ⟨commitChunk c s.chunks s.current_words,
      s.current_words.drop (s.current_words.length - overlapWordCount c) ++ [w],
      ((s.current_words.drop (s.current_words.length - overlapWordCount c)).map
        (fun v => c.enc (v ++ " "))).sum + c.enc (w ++ " ")⟩ := by
  simp only [chunkStep, if_pos h]

theorem chunkStep_of_no_commit {c : Chunkenizer} {s : LoopState} {w : String}
    (h : ¬(((s.current_tokens + c.enc (w ++ " ") : Int) > c.max_tokens) ∧
      s.current_words ≠ [])) :
    chunkStep c s w = ⟨s.chunks, s.current_words ++ [w],
      s.current_tokens + c.enc (w ++ " ")⟩ := by
  simp only [chunkStep, if_neg h]

theorem commitChunk_eq (c : Chunkenizer) (chunks : List Chunk) (cur : List String) :
    commitChunk c chunks cur = chunks ++
      [⟨chunks.length, joinWords cur, c.count_tokens (joinWords cur),
        (joinWords cur).length⟩] := rfl

theorem wordsOf_mkChunk (c : Chunkenizer) (n : Nat) (cur : List String)
    (hwf : ∀ w ∈ cur, IsWord w) :
    wordsOf ⟨n, joinWords cur, c.count_tokens (joinWords cur),
      (joinWords cur).length⟩ = cur :=
  splitWords_joinWords cur hwf

theorem commit_recon {c : Chunkenizer} {K : Nat} {done : List String} {s : LoopState}
    (hs : GoodState K done s) :
    reconstructWords K (commitChunk c s.chunks s.current_words) = done := by
  rw [commitChunk_eq]
  by_cases hch : s.chunks = []
  · rw [hch, List.nil_append, reconstructWords_singleton,
      wordsOf_mkChunk c _ s.current_words hs.wf_cur]
    exact hs.recon_nil hch
  · have hL := List.getLast?_eq_getLast s.chunks hch
    rw [reconstructWords_concat K s.chunks _ _ hL,
      wordsOf_mkChunk c _ s.current_words hs.wf_cur]
    exact hs.recon _ hL

theorem commit_chain {c : Chunkenizer} {K : Nat} {done : List String} {s : LoopState}
    (hs : GoodState K done s) (hcur : s.current_words ≠ []) :
    List.Chain' (carriesOverlap K) (commitChunk c s.chunks s.current_words) := by
  rw [commitChunk_eq, List.chain'_append]
  refine ⟨hs.chain, List.chain'_singleton _, ?_⟩
  intro x hx y hy
  rw [Option.mem_def] at hx hy
  simp only [List.head?_cons, Option.some.injEq] at hy
  subst hy
  have hxmem : x ∈ s.chunks := List.mem_of_getLast?_eq_some hx
  have hWC := wordsOf_mkChunk c s.chunks.length s.current_words hs.wf_cur
  refine ⟨(hs.wf_chunks x hxmem).1, ?_, ?_⟩
  · rw [hWC]
    exact hcur
  · rw [hWC]
    exact (hs.pref x hx).2

theorem commit_wf {c : Chunkenizer} {K : Nat} {done : List String} {s : LoopState}
    (hs : GoodState K done s) (hcur : s.current_words ≠ []) :
    ∀ ch ∈ commitChunk c s.chunks s.current_words,
      wordsOf ch ≠ [] ∧ ∀ w ∈ wordsOf ch, IsWord w := by
  rw [commitChunk_eq]
  intro ch hch
  rcases List.mem_append.1 hch with h1 | h1
  · exact hs.wf_chunks ch h1
  · rcases List.mem_singleton.1 h1 with rfl
    have hWC := wordsOf_mkChunk c s.chunks.length s.current_words hs.wf_cur
    rw [hWC]
    exact ⟨hcur, hs.wf_cur⟩

theorem chunkStep_good (c : Chunkenizer) (done : List String) (s : LoopState)
    (w : String) (hw : IsWord w) (hs : GoodState (overlapWordCount c) done s) :
    GoodState (overlapWordCount c) (done ++ [w]) (chunkStep c s w) := by
  by_cases hcond : ((s.current_tokens + c.enc (w ++ " ") : Int) > c.max_tokens) ∧
      s.current_words ≠ []
  · rw [chunkStep_of_commit hcond]
    have hcur := hcond.2
    have hWC := wordsOf_mkChunk c s.chunks.length s.current_words hs.wf_cur
    have hlencw : (s.current_words.drop
        (s.current_words.length - overlapWordCount c)).length =
        min (overlapWordCount c) s.current_words.length := by
      rw [List.length_drop]
      omega
    refine ⟨?_, ?_, ?_, ?_, ?_, ?_⟩
    · intro v hv
      rcases List.mem_append.1 hv with h1 | h1
      · exact hs.wf_cur v (List.drop_subset _ _ h1)
      · rcases List.mem_singleton.1 h1 with rfl
        exact hw
    · exact commit_wf hs hcur
    · exact commit_chain hs hcur
    · intro L hL
      rw [commitChunk_eq, List.getLast?_concat] at hL
      rcases Option.some.injEq .. ▸ hL with rfl
      rw [hWC]
      constructor
      · rw [List.length_append, hlencw]
        simp
      · calc ((s.current_words.drop (s.current_words.length - overlapWordCount c))
              ++ [w]).take (min (overlapWordCount c) s.current_words.length)
            = ((s.current_words.drop (s.current_words.length - overlapWordCount c))
              ++ [w]).take (s.current_words.drop
                (s.current_words.length - overlapWordCount c)).length := by
              rw [hlencw]
          _ = s.current_words.drop (s.current_words.length - overlapWordCount c) :=
              List.take_left _ _
          _ = s.current_words.drop (s.current_words.length -
                min (overlapWordCount c) s.current_words.length) := by
              congr 1
              omega
    · intro h
      exact absurd h (by simp [commitChunk_eq])
    · intro L hL
      rw [commitChunk_eq, List.getLast?_concat] at hL
      rcases Option.some.injEq .. ▸ hL with rfl
      rw [hWC]
      rw [commit_recon hs]
      rw [← hlencw, List.drop_left]
  · rw [chunkStep_of_no_commit hcond]
    refine ⟨?_, hs.wf_chunks, hs.chain, ?_, ?_, ?_⟩
    · intro v hv
      rcases List.mem_append.1 hv with h1 | h1
      · exact hs.wf_cur v h1
      · rcases List.mem_singleton.1 h1 with rfl
        exact hw
    · intro L hL
      obtain ⟨h1, h2⟩ := hs.pref L hL
      constructor
      · rw [List.length_append]
        omega
      · rw [List.take_append_of_le_length h1]
        exact h2
    · intro h
      rw [hs.recon_nil h]
    · intro L hL
      rw [List.drop_append_of_le_length (hs.pref L hL).1, ← List.append_assoc,
        hs.recon L hL]

theorem chunkLoop_good (c : Chunkenizer) : ∀ (ws done : List String) (s : LoopState),
    (∀ w ∈ ws, IsWord w) → GoodState (overlapWordCount c) done s →
    GoodState (overlapWordCount c) (done ++ ws) (chunkLoop c s ws)
  | [], done, s, _, hs => by simpa [chunkLoop] using hs
  | w :: ws, done, s, hws, hs => by
    have h1 := chunkStep_good c done s w (hws w (by simp)) hs
    have h2 := chunkLoop_good c ws (done ++ [w]) (chunkStep c s w)
      (fun v hv => hws v (by simp [hv])) h1
    have h3 : (done ++ [w]) ++ ws = done ++ w :: ws := by simp
    rw [h3] at h2
    exact h2

theorem initState_good (K : Nat) : GoodState K [] ⟨[], [], 0⟩ := by
  refine ⟨?_, ?_, ?_, ?_, ?_, ?_⟩ <;> simp [List.chain'_nil]

theorem chunk_text_main (c : Chunkenizer) (text : String) :
    reconstructWords (overlapWordCount c) (c.chunk_text text) = splitWords text ∧
    List.Chain' (carriesOverlap (overlapWordCount c)) (c.chunk_text text) ∧
    (∀ ch ∈ c.chunk_text text, wordsOf ch ≠ [] ∧ ∀ w ∈ wordsOf ch, IsWord w) := by
  by_cases hb : isBlank text = true
  · rw [splitWords_of_isBlank text hb]
    simp [Chunkenizer.chunk_text, hb, reconstructWords, List.chain'_nil]
  · have hwords : ∀ w ∈ splitWords text, IsWord w := splitWords_wf text
    have hloop := chunkLoop_good c (splitWords text) [] ⟨[], [], 0⟩ hwords
      (initState_good (overlapWordCount c))
    rw [List.nil_append] at hloop
    have hct : c.chunk_text text =
        if (chunkLoop c ⟨[], [], 0⟩ (splitWords text)).current_words ≠ [] then
          commitChunk c (chunkLoop c ⟨[], [], 0⟩ (splitWords text)).chunks
            (chunkLoop c ⟨[], [], 0⟩ (splitWords text)).current_words
        else (chunkLoop c ⟨[], [], 0⟩ (splitWords text)).chunks := by
      simp only [Chunkenizer.chunk_text, hb, Bool.false_eq_true, if_false]
    rw [hct]
    set s := chunkLoop c ⟨[], [], 0⟩ (splitWords text) with hsdef
    by_cases hcur : s.current_words ≠ []
    · rw [if_pos hcur]
      refine ⟨commit_recon hloop, commit_chain hloop hcur, commit_wf hloop hcur⟩
    · rw [if_neg hcur]
      push_neg at hcur
      refine ⟨?_, hloop.chain, hloop.wf_chunks⟩
      by_cases hch : s.chunks = []
      · rw [hch]
        have h1 := hloop.recon_nil hch
        rw [hcur] at h1
        rw [← h1]
        rfl
      · have hL := List.getLast?_eq_getLast s.chunks hch
        have h2 := hloop.recon _ hL
        rw [hcur] at h2
        simpa using h2

theorem chunkLoop_token_count (c : Chunkenizer) : ∀ (ws : List String) (s : LoopState),
    (∀ ch ∈ s.chunks, ch.token_count = c.count_tokens ch.text) →
    ∀ ch ∈ (chunkLoop c s ws).chunks, ch.token_count = c.count_tokens ch.text
  | [], _, hs => hs
  | w :: ws, s, hs => by
    refine chunkLoop_token_count c ws (chunkStep c s w) ?_
    by_cases hcond : ((s.current_tokens + c.enc (w ++ " ") : Int) > c.max_tokens) ∧
        s.current_words ≠ []
    · rw [chunkStep_of_commit hcond]
      intro ch hch
      have hch' : ch ∈ s.chunks ++
          [⟨s.chunks.length, joinWords s.current_words,
            c.count_tokens (joinWords s.current_words),
            (joinWords s.current_words).length⟩] := hch
      rcases List.mem_append.1 hch' with h1 | h1
      · exact hs ch h1
      · rcases List.mem_singleton.1 h1 with rfl
        rfl
    · rw [chunkStep_of_no_commit hcond]
      exact hs

theorem chunk_text_token_count (c : Chunkenizer) (text : String) :
    ∀ ch ∈ c.chunk_text text, ch.token_count = c.count_tokens ch.text := by
  by_cases hb : isBlank text = true
  · simp [Chunkenizer.chunk_text, hb]
  · have hloop := chunkLoop_token_count c (splitWords text) ⟨[], [], 0⟩ (by simp)
    have hct : c.chunk_text text =
        if (chunkLoop c ⟨[], [], 0⟩ (splitWords text)).current_words ≠ [] then
          commitChunk c (chunkLoop c ⟨[], [], 0⟩ (splitWords text)).chunks
            (chunkLoop c ⟨[], [], 0⟩ (splitWords text)).current_words
        else (chunkLoop c ⟨[], [], 0⟩ (splitWords text)).chunks := by
      simp only [Chunkenizer.chunk_text, hb, Bool.false_eq_true, if_false]
    rw [hct]
    set s := chunkLoop c ⟨[], [], 0⟩ (splitWords text) with hsdef
    by_cases hcur : s.current_words ≠ []
    · rw [if_pos hcur]
      intro ch hch
      rw [commitChunk_eq] at hch
      rcases List.mem_append.1 hch with h1 | h1
      · exact hloop ch h1
      · rcases List.mem_singleton.1 h1 with rfl
        rfl
    · rw [if_neg hcur]
      exact hloop

theorem chunkLoop_measure (c : Chunkenizer) : ∀ (ws : List String) (s : LoopState),
    chunkMeasure (chunkLoop c s ws) ≤ chunkMeasure s + ws.length
  | [], s => by simp [chunkLoop]
  | w :: ws, s => by
    have ih := chunkLoop_measure c ws (chunkStep c s w)
    have hstep : chunkMeasure (chunkStep c s w) ≤ chunkMeasure s + 1 := by
      by_cases hcond : ((s.current_tokens + c.enc (w ++ " ") : Int) > c.max_tokens) ∧
          s.current_words ≠ []
      · rw [chunkStep_of_commit hcond]
        have hcur := hcond.2
        simp [chunkMeasure, commitChunk_eq, hcur]
      · rw [chunkStep_of_no_commit hcond]
        by_cases h : s.current_words = [] <;> simp [chunkMeasure, h]
    have hcons : chunkMeasure (chunkLoop c s (w :: ws)) =
        chunkMeasure (chunkLoop c (chunkStep c s w) ws) := rfl
    rw [hcons]
    calc chunkMeasure (chunkLoop c (chunkStep c s w) ws)
        ≤ chunkMeasure (chunkStep c s w) + ws.length := ih
      _ ≤ (chunkMeasure s + 1) + ws.length := by omega
      _ = chunkMeasure s + (w :: ws).length := by
          rw [List.length_cons]
          omega

theorem chunk_text_length_le (c : Chunkenizer) (text : String) :
    (c.chunk_text text).length ≤ (splitWords text).length := by
  by_cases hb : isBlank text = true
  · simp [Chunkenizer.chunk_text, hb]
  · have hm := chunkLoop_measure c (splitWords text) ⟨[], [], 0⟩
    have h0 : chunkMeasure ⟨[], [], 0⟩ = 0 := by simp [chunkMeasure]
    rw [h0] at hm
    have hct : c.chunk_text text =
        if (chunkLoop c ⟨[], [], 0⟩ (splitWords text)).current_words ≠ [] then
          commitChunk c (chunkLoop c ⟨[], [], 0⟩ (splitWords text)).chunks
            (chunkLoop c ⟨[], [], 0⟩ (splitWords text)).current_words
        else (chunkLoop c ⟨[], [], 0⟩ (splitWords text)).chunks := by
      simp only [Chunkenizer.chunk_text, hb, Bool.false_eq_true, if_false]
    rw [hct]
    set s := chunkLoop c ⟨[], [], 0⟩ (splitWords text) with hsdef
    by_cases hcur : s.current_words ≠ []
    · rw [if_pos hcur]
      have hlen : (commitChunk c s.chunks s.current_words).length =
          s.chunks.length + 1 := by
        rw [commitChunk_eq, List.length_append, List.length_cons, List.length_nil]
      rw [hlen]
      have : chunkMeasure s = s.chunks.length + 1 := by
        simp [chunkMeasure, hcur]
      omega
    · rw [if_neg hcur]
      have : s.chunks.length ≤ chunkMeasure s := by
        simp [chunkMeasure]
      omega

theorem assembleResult_agg (c : Chunkenizer) (src : String) (chunks : List Chunk) :
    AggOk (assembleResult c src chunks) := ⟨rfl, rfl, rfl⟩

theorem process_ok_inv (c : Chunkenizer) (pe : String → Bool)
    (ex : String → Except String String) (p : String) (r : ChunkResult)
    (h : c.process pe ex p = Except.ok r) :
    r = assembleResult c (pathName p) (c.chunk_text ((ex p).toOption.getD "")) := by
  simp only [Chunkenizer.process] at h
  split at h
  · simp at h
  · split at h
    · simp at h
    · split at h
      · simp at h
      · rename_i text htext
        rw [htext]
        simp only [Except.ok.injEq] at h
        rw [← h]
        rfl

/-- C1 (counterexample): with `overlap_tokens = 0` and valid `max_tokens = 2 > 0`,
chunking `"a b c"` under the test counter yields the chunks `"a b"` and `"b c"`:
the word `"b"` occurs in two consecutive chunks, refuting the claim that with
`overlap_tokens = 0` no word appears in two consecutive chunks. -/
theorem overlap_zero_shares_word :
    testChunker.overlap_tokens = 0 ∧ (0 : Int) < testChunker.max_tokens ∧
    (testChunker.chunk_text "a b c").map wordsOf = [["a", "b"], ["b", "c"]] := by
  decide

/-- C1 (amended): with `overlap_tokens = 0` the code still computes
`overlap_word_count = max(1, 0 // 4) = 1`, so the last word of every chunk
committed mid-pass is carried into the next chunk: in the emitted sequence,
every chunk after the first begins with the last word of its predecessor,
hence that word is duplicated across the two consecutive chunks. -/
theorem overlap_zero_carries_last_word (mt : Int) (model : String)
    (enc : String → Nat) (text : String) :
    List.Chain' (fun a b => wordsOf a ≠ [] ∧
      (wordsOf b).take 1 = (wordsOf a).drop ((wordsOf a).length - 1))
      (Chunkenizer.chunk_text ⟨mt, 0, model, enc⟩ text) := by
  have h := (chunk_text_main ⟨mt, 0, model, enc⟩ text).2.1
  have hK : overlapWordCount ⟨mt, 0, model, enc⟩ = 1 := rfl
  rw [hK] at h
  refine h.imp ?_
  intro a b hab
  obtain ⟨ha, hb, htake⟩ := hab
  refine ⟨ha, ?_⟩
  have hlen : 1 ≤ (wordsOf a).length := by
    cases hw : wordsOf a
    · exact absurd hw ha
    · simp [hw]
  rw [min_eq_left hlen] at htake
  exact htake

/-- C2 (counterexample): on input `"alpha beta gamma delta epsilon"` with
`max_tokens = 2`, `overlap_tokens = 0` and the one-token-per-word test counter,
`chunk_text` does not return the three chunks
`["alpha beta", "gamma delta", "epsilon"]` claimed by the spec. -/
theorem scenario1_not_spec_output :
    (testChunker.chunk_text "alpha beta gamma delta epsilon").map Chunk.text ≠
      ["alpha beta", "gamma delta", "epsilon"] := by
  decide

/-- C2 (amended): the actual result on `"alpha beta gamma delta epsilon"` with
`max_tokens = 2`, `overlap_tokens = 0` and the test counter: because one word of
overlap is always kept, the chunks are `"alpha beta"`, `"beta gamma"`,
`"gamma delta"`, `"delta epsilon"` with indices 0-3, `total_chunks = 4` and
`total_tokens = 8`. -/
theorem scenario1_actual_output :
    testChunker.process_text "alpha beta gamma delta epsilon" "text" =
      ⟨"text", 4, 8, 44,
        [⟨0, "alpha beta", 2, 10⟩, ⟨1, "beta gamma", 2, 10⟩,
         ⟨2, "gamma delta", 2, 11⟩, ⟨3, "delta epsilon", 2, 13⟩],
        ⟨2, 0, "test"⟩⟩ := by
  decide

/-- C3 (counterexample): constructing a `Chunkenizer` with `max_tokens = 0`
(which is `≤ 0`) and `overlap_tokens = -1` (which is `< 0`) succeeds and returns
the stored configuration; construction does not fail with any invalid
configuration error. -/
theorem init_accepts_invalid_config :
    Chunkenizer.init (fun _ => some testCounter) 0 (-1) "gpt-4" =
      Except.ok ⟨0, -1, "gpt-4", testCounter⟩ := rfl

/-- C3 (amended): `__init__` performs no validation of `max_tokens` or
`overlap_tokens`: whenever the model lookup succeeds, construction succeeds for
every `max_tokens` and `overlap_tokens` (including `max_tokens ≤ 0` and
`overlap_tokens < 0`) and stores the values unchanged; no invalid-configuration
error path exists in the constructor. -/
theorem init_no_validation (encFor : String → Option (String → Nat))
    (max_tokens overlap_tokens : Int) (model : String) (e : String → Nat)
    (h : encFor model = some e) :
    Chunkenizer.init encFor max_tokens overlap_tokens model =
      Except.ok ⟨max_tokens, overlap_tokens, model, e⟩ := by
  simp [Chunkenizer.init, h]

/-- C3 witness: `init_no_validation` instantiated at `max_tokens = -5`,
`overlap_tokens = -7` with a concrete encoding lookup. -/
theorem init_no_validation_witness :
    (fun _ : String => some testCounter) "gpt-4" = some testCounter ∧
    Chunkenizer.init (fun _ => some testCounter) (-5) (-7) "gpt-4" =
      Except.ok ⟨-5, -7, "gpt-4", testCounter⟩ :=
  ⟨rfl, init_no_validation (fun _ => some testCounter) (-5) (-7) "gpt-4" testCounter rfl⟩

/-- C4: for every input text and every configuration, concatenating the word
sequences of all emitted chunks in order, after removing from each chunk other
than the first the words carried over as overlap from the previous chunk
(`min overlap_word_count (previous length)` words), yields exactly the
whitespace-split word sequence of the original input: order preserved, no word
split, no word dropped. -/
theorem chunk_text_no_split (c : Chunkenizer) (text : String) :
    reconstructWords (overlapWordCount c) (c.chunk_text text) = splitWords text :=
  (chunk_text_main c text).1

/-- C5: whenever `chunk_text` commits a window mid-pass, the retained overlap
is `overlap_word_count = max(1, overlap_tokens // 4)` clamped to the committed
window length, and the new window is exactly the last `overlap_word_count`
words of the committed chunk in their original relative order: every pair of
consecutive emitted chunks `a, b` satisfies `carriesOverlap`, i.e. `b` starts
with precisely the last `min overlap_word_count (length a)` words of `a`.
The reset of the running token estimate to `Σ count(word + " ")` over the
retained words is the corresponding clause of the embedded step function
`chunkStep`. -/
theorem chunk_text_overlap_carry (c : Chunkenizer) (text : String) :
    List.Chain' (carriesOverlap (overlapWordCount c)) (c.chunk_text text) :=
  (chunk_text_main c text).2.1

/-- C6: every chunk emitted by `chunk_text` has `token_count` equal to the
token counter applied directly to the chunk's final joined text
(`count_tokens chunk.text`), never the incrementally accumulated estimate. -/
theorem chunk_token_count_exact (c : Chunkenizer) (text : String) (ch : Chunk)
    (h : ch ∈ c.chunk_text text) : ch.token_count = c.count_tokens ch.text :=
  chunk_text_token_count c text ch h

/-- C6 witness: `chunk_token_count_exact` applied to the first chunk of a
concrete run. -/
theorem chunk_token_count_exact_witness :
    (⟨0, "a b", 2, 3⟩ : Chunk) ∈ testChunker.chunk_text "a b c" ∧
    (⟨0, "a b", 2, 3⟩ : Chunk).token_count = testChunker.count_tokens "a b" :=
  ⟨by decide, chunk_token_count_exact testChunker "a b c" ⟨0, "a b", 2, 3⟩ (by decide)⟩

/-- C7: every `ChunkResult` returned by `process` (when it succeeds) or by
`process_text` satisfies `total_chunks = len(chunks)`,
`total_tokens = Σ token_count` and `total_chars = Σ char_count`. -/
theorem result_aggregates_consistent (c : Chunkenizer) (pathExists : String → Bool)
    (extract : String → Except String String) (file_path text source_name : String)
    (r : ChunkResult) (h : c.process pathExists extract file_path = Except.ok r) :
    AggOk r ∧ AggOk (c.process_text text source_name) := by
  constructor
  · rw [process_ok_inv c pathExists extract file_path r h]
    exact assembleResult_agg c _ _
  · exact assembleResult_agg c _ _

/-- C7 witness: `result_aggregates_consistent` applied to a concrete
successful `process` run on `"doc.pdf"`. -/
theorem result_aggregates_consistent_witness :
    testChunker.process (fun _ => true) (fun _ => Except.ok "hello world") "doc.pdf" =
      Except.ok ⟨"doc.pdf", 1, 2, 11, [⟨0, "hello world", 2, 11⟩], ⟨2, 0, "test"⟩⟩ ∧
    AggOk ⟨"doc.pdf", 1, 2, 11, [⟨0, "hello world", 2, 11⟩], ⟨2, 0, "test"⟩⟩ :=
  ⟨rfl, (result_aggregates_consistent testChunker (fun _ => true)
    (fun _ => Except.ok "hello world") "doc.pdf" "t" "s" _ rfl).1⟩

/-- C8: for every input that is empty or consists only of whitespace,
`chunk_text` returns the empty chunk sequence (and, being a total function,
does not fail), and `process_text` on such input yields `total_chunks = 0`
and an empty chunks list. -/
theorem empty_input_yields_no_chunks (c : Chunkenizer) (text source_name : String)
    (h : isBlank text = true) :
    c.chunk_text text = [] ∧ (c.process_text text source_name).total_chunks = 0 ∧
      (c.process_text text source_name).chunks = [] := by
  have h1 : c.chunk_text text = [] := by simp [Chunkenizer.chunk_text, h]
  refine ⟨h1, ?_, ?_⟩
  · show (assembleResult c source_name (c.chunk_text text)).total_chunks = 0
    rw [h1]
    rfl
  · show (assembleResult c source_name (c.chunk_text text)).chunks = []
    rw [h1]
    rfl

/-- C8 witness: `empty_input_yields_no_chunks` at the whitespace-only
input `"   "`. -/
theorem empty_input_yields_no_chunks_witness :
    isBlank "   " = true ∧ testChunker.chunk_text "   " = [] ∧
      (testChunker.process_text "   " "text").total_chunks = 0 ∧
      (testChunker.process_text "   " "text").chunks = [] :=
  ⟨by decide, empty_input_yields_no_chunks testChunker "   " "text" (by decide)⟩

/-- C9: for every existing file path whose lowercased extension is not in the
recognized set, `process` fails with the unsupported-format error, and it does
so for every possible extraction collaborator — the result does not depend on
`extract`, so extraction is never invoked for an unrecognized extension. -/
theorem unsupported_extension_rejected (c : Chunkenizer) (pathExists : String → Bool)
    (file_path : String) (h1 : pathExists file_path = true)
    (h2 : supportedExtensions.contains (strToLower (pathSuffix file_path)) = false) :
    ∀ extract : String → Except String String,
      c.process pathExists extract file_path =
        Except.error (ProcessError.unsupportedFormat
          (strToLower (pathSuffix file_path))) := by
  intro extract
  have h2m : strToLower (pathSuffix file_path) ∉ supportedExtensions := by
    simpa using h2
  simp [Chunkenizer.process, h1, h2]
  intro hmem
  exact absurd hmem h2m

/-- C9 witness: `unsupported_extension_rejected` at the concrete path
`"notes.txt"` (extension `.txt`, not recognized). -/
theorem unsupported_extension_rejected_witness :
    (fun _ : String => true) "notes.txt" = true ∧
    supportedExtensions.contains (strToLower (pathSuffix "notes.txt")) = false ∧
    testChunker.process (fun _ => true) (fun _ => Except.ok "hi") "notes.txt" =
      Except.error (ProcessError.unsupportedFormat
        (strToLower (pathSuffix "notes.txt"))) :=
  ⟨rfl, by decide, unsupported_extension_rejected testChunker (fun _ => true)
    "notes.txt" rfl (by decide) (fun _ => Except.ok "hi")⟩

/-- C10: for every input text and valid configuration (`max_tokens > 0`), the
number of chunks returned by `chunk_text` is at most the number of
whitespace-delimited words of the input. -/
theorem chunk_count_le_word_count (c : Chunkenizer) (text : String)
    (h : 0 < c.max_tokens) :
    (c.chunk_text text).length ≤ (splitWords text).length :=
  chunk_text_length_le c text

/-- C10 witness: `chunk_count_le_word_count` at `"a b c"` with the valid
test configuration. -/
theorem chunk_count_le_word_count_witness :
    (0 : Int) < testChunker.max_tokens ∧
    (testChunker.chunk_text "a b c").length ≤ (splitWords "a b c").length :=
  ⟨by decide, chunk_count_le_word_count testChunker "a b c" (by decide)⟩
